import Mathlib

/-!
Verification of the core review pipeline of `crotg`: the unified-diff parser
(`internal/git/diff.go`), the diff renderer (`internal/review/diff_render.go`),
the review data types (`internal/review/types.go`) and the orchestrator /
deduplicator / verdict composer (the `review` package part of the source,
`Run`, `dedupeComments`, `parseFileComments`, `generateVerdict`).

Modelling conventions:
- Go strings are modelled as `List Char` (`GoStr`); Go string library calls
  (`strings.TrimSpace`, `strings.HasPrefix`, `strings.Split`, ...) are given
  explicit executable models below, each annotated with the Go function it
  embeds.  `unicode` classification is modelled on the Latin-1 range, which
  covers every string the program itself produces or compares against.
- Go `int` is modelled as `Int` (overflow is irrelevant here: all arithmetic
  is line counting on parsed decimal literals).
- `bufio.Scanner` line splitting (split on LF, drop a trailing CR per line,
  no final empty line) is modelled by `goLines`.
-/

/-- Model of a Go `string`: its list of characters. -/
abbrev GoStr := List Char

/-- Coerce a Lean string literal to the `GoStr` model. -/
def gs (s : String) : GoStr := s.data

/-- Model of Go `unicode.IsSpace` on the Latin-1 range: space, TAB, LF,
vertical tab, form feed, CR, NEL (U+0085) and NBSP (U+00A0). -/
def isGoSpace (c : Char) : Bool :=
  c = ' ' || c = '\t' || c = '\n' || c = '\x0b' || c = '\x0c' || c = '\r' ||
  c = '\x85' || c = '\xa0'

/-- Model of `strings.TrimSpace`: drop leading and trailing whitespace. -/
def goTrimSpace (s : GoStr) : GoStr :=
  ((s.dropWhile isGoSpace).reverse.dropWhile isGoSpace).reverse

/-- Model of `strings.HasPrefix p s` (argument order: prefix first). -/
def hasPrefixStr (p s : GoStr) : Bool := p.isPrefixOf s

/-- Model of `strings.TrimPrefix s p`: drop `p` when it is a prefix of `s`,
otherwise return `s` unchanged. -/
def trimPrefixStr (p s : GoStr) : GoStr :=
  if hasPrefixStr p s then s.drop p.length else s

/-- Model of `strings.TrimSuffix s p`. -/
def trimSuffixStr (p s : GoStr) : GoStr :=
  if p.isSuffixOf s then s.take (s.length - p.length) else s

/-- Model of `strings.Split(s, sep)` for a one-character separator: split on
every occurrence, keeping empty fields (never returns an empty list). -/
def splitOnChar (sep : Char) : GoStr → List GoStr
  | [] => [[]]
  | c :: rest =>
    match splitOnChar sep rest with
    | [] => [[c]]
    | a :: as => if c = sep then [] :: a :: as else (c :: a) :: as

/-- Model of ASCII upper-casing of one character (`unicode.ToUpper` restricted
to the range the program compares against). -/
def upperChar (c : Char) : Char :=
  if 'a' ≤ c ∧ c ≤ 'z' then Char.ofNat (c.toNat - 32) else c

/-- Model of `strings.ToUpper`. -/
def goToUpper (s : GoStr) : GoStr := s.map upperChar

/-- Model of `strconv.Atoi` restricted to values that fit the machine `int`
(the inputs here are line numbers): an optional sign followed by at least one
decimal digit, nothing else. -/
def atoi (s : GoStr) : Option Int :=
  let digits : GoStr → Option Nat := fun ds =>
    if ds = [] then none
    else if ds.all (fun c => c.isDigit) then
      some (ds.foldl (fun acc c => acc * 10 + (c.toNat - 48)) 0)
    else none
  match s with
  | '-' :: rest => (digits rest).map (fun n => -(n : Int))
  | '+' :: rest => (digits rest).map (fun n => (n : Int))
  | _ => (digits s).map (fun n => (n : Int))

/-- One trailing carriage return is dropped from each scanned line
(`bufio.ScanLines` / `dropCR`). -/
def dropCR (l : GoStr) : GoStr :=
  if l.getLast? = some '\r' then l.dropLast else l

/-- Model of the `bufio.Scanner` line sequence of a string: split on `'\n'`,
drop the final empty field produced by a trailing newline (or by the empty
string), then strip one trailing CR per line. -/
def goLines (s : GoStr) : List GoStr :=
  let raw := splitOnChar '\n' s
  let raw := if raw.getLast? = some [] then raw.dropLast else raw
  raw.map dropCR

/-! ## Review data types (`internal/review/types.go`) -/

/-- `Severity` from `types.go`; modelled by its four canonical constants
(`NormalizeSeverity` maps every raw string onto these). -/
inductive Severity where
  | nit
  | suggestion
  | issue
  | blocker
deriving DecidableEq, Repr

/-- The Go string value of a `Severity` constant. -/
def severityStr : Severity → GoStr
  | .nit => gs "NIT"
  | .suggestion => gs "SUGGESTION"
  | .issue => gs "ISSUE"
  | .blocker => gs "BLOCKER"

/-- `Decision` from `types.go` (`GO` / `NO_GO`). -/
inductive Decision where
  | go
  | noGo
deriving DecidableEq, Repr

/-- `Comment` from `types.go`. -/
structure Comment where
  id : GoStr
  filePath : GoStr
  startLine : Int
  endLine : Int
  severity : Severity
  title : GoStr
  body : GoStr
  suggestion : Option GoStr
  evidence : Option GoStr
  tags : List GoStr
  publish : Bool
deriving DecidableEq, Repr

/-- `Stats` from `types.go`. -/
structure Stats where
  nit : Nat
  suggestion : Nat
  issue : Nat
  blocker : Nat
deriving DecidableEq, Repr

/-- `Verdict` from `types.go`. -/
structure Verdict where
  decision : Decision
  summary : GoStr
  rationale : List GoStr
  stats : Stats
deriving DecidableEq, Repr

/-- `Result` from `types.go`.  `GeneratedAt` (a wall-clock timestamp) is
outside the model; the remaining fields are carried verbatim. -/
structure Result where
  comments : List Comment
  verdict : Verdict
  model : GoStr
  guidelineHash : GoStr
  dropped : Int
deriving DecidableEq, Repr

/-- `ComputeStats` from `types.go`: one counter increment per severity. -/
def computeStats (comments : List Comment) : Stats :=
  comments.foldl
    (fun stats comment =>
      match comment.severity with
      | .nit => { stats with nit := stats.nit + 1 }
      | .suggestion => { stats with suggestion := stats.suggestion + 1 }
      | .issue => { stats with issue := stats.issue + 1 }
      | .blocker => { stats with blocker := stats.blocker + 1 })
    ⟨0, 0, 0, 0⟩

/-- The decimal rendering `fmt.Sprintf("%d", n)` of an `int`. -/
def intToStr (n : Int) : GoStr := (toString n).data

/-- `StableCommentID` from `types.go`.  The Go code feeds the six normalized
parts, each followed by a NUL byte, into SHA-256 and returns the hex digest.
SHA-256 itself is outside the model: the digest is modelled by the byte
stream fed to the hasher (parts joined by NUL), which preserves the property
the program relies on — equal part streams yield equal digests. -/
def stableCommentID (comment : Comment) : GoStr :=
  let parts : List GoStr :=
    [goTrimSpace comment.filePath,
     intToStr comment.startLine,
     intToStr comment.endLine,
     severityStr comment.severity,
     goTrimSpace comment.title,
     goTrimSpace comment.body]
  parts.flatMap (fun part => part ++ [Char.ofNat 0])

/-- `NormalizeDecision` from `types.go`: upper-case the trimmed input and map
`NO_GO` / `NO-GO` / `NOGO` to `NO_GO`; every other string maps to `GO`. -/
def normalizeDecision (value : GoStr) : Decision :=
  let v := goToUpper (goTrimSpace value)
  if v = gs "NO_GO" ∨ v = gs "NO-GO" ∨ v = gs "NOGO" then .noGo else .go

/-- `NormalizeSeverity` from `types.go`. -/
def normalizeSeverity (value : GoStr) : Severity :=
  let v := goToUpper (goTrimSpace value)
  if v = gs "BLOCKER" then .blocker
  else if v = gs "ISSUE" then .issue
  else if v = gs "SUGGESTION" then .suggestion
  else .nit

/-! ## Comment deduplication (`dedupeComments`, review package) -/

/-- One step of `dedupeComments`: assign the stable ID when the comment's own
ID is blank (the Go loop mutates its local copy). -/
def assignID (comment : Comment) : Comment :=
  if goTrimSpace comment.id = [] then { comment with id := stableCommentID comment }
  else comment

/-- `dedupeComments` from the review package.  The Go code accumulates the
first comment per ID in a map and then returns the map's values.  Go map
iteration order is unspecified; it is modelled here as insertion order (the
theorems below either hold under every iteration order or evaluate the
function on maps with at most one entry, where every order agrees). -/
def dedupeComments (comments : List Comment) : List Comment :=
  let step : List Comment → Comment → List Comment := fun seen comment =>
    let comment := assignID comment
    if seen.any (fun kept => kept.id = comment.id) then seen
    else seen ++ [comment]
  comments.foldl step []

/-! ## Unified diff parser (`internal/git/diff.go`) -/

/-- `DiffLineKind` from `diff.go`. -/
inductive DiffLineKind where
  | context
  | add
  | del
deriving DecidableEq, Repr

/-- `DiffLine` from `diff.go`. -/
structure DiffLine where
  kind : DiffLineKind
  oldLine : Int
  newLine : Int
  text : GoStr
deriving DecidableEq, Repr

/-- `DiffHunk` from `diff.go`. -/
structure DiffHunk where
  header : GoStr
  lines : List DiffLine
  oldStart : Int
  oldLines : Int
  newStart : Int
  newLines : Int
deriving DecidableEq, Repr

/-- `DiffFile` from `diff.go`. -/
structure DiffFile where
  path : GoStr
  hunks : List DiffHunk
deriving DecidableEq, Repr

/-- The two error values the parser can produce: `errors.New("diff is empty")`
for whitespace-only input (the spec's `EmptyDiff`), and the hunk-header
failures — `errors.New("invalid hunk header")` for a wrong token count and the
`strconv` error for non-numeric fields — which the spec groups as
`MalformedHunkHeader`. -/
inductive DiffError where
  | emptyDiff
  | malformedHunkHeader
deriving DecidableEq, Repr

/-- `parseRange` from `diff.go`: strip a leading `-` then a leading `+`, split
on commas; the first field is the start, the second (when present) the count,
defaulting to 1; extra fields are ignored; non-numeric fields fail. -/
def parseRange (value : GoStr) : Except DiffError (Int × Int) :=
  let value := trimPrefixStr (gs "-") value
  let value := trimPrefixStr (gs "+") value
  match splitOnChar ',' value with
  | [] => .error .malformedHunkHeader
  | p :: rest =>
    match atoi p with
    | none => .error .malformedHunkHeader
    | some start =>
      match rest with
      | [] => .ok (start, 1)
      | q :: _ =>
        match atoi q with
        | none => .error .malformedHunkHeader
        | some lines => .ok (start, lines)

/-- `parseHunkHeader` from `diff.go`: keep the raw line as the header, strip
the leading and trailing `@@`, trim, split on single spaces; fewer than two
tokens is an invalid header; the first two tokens are the old and new
ranges. -/
def parseHunkHeader (line : GoStr) :
    Except DiffError (GoStr × Int × Int × Int × Int) :=
  let trimmed := goTrimSpace (trimSuffixStr (gs "@@") (trimPrefixStr (gs "@@") line))
  match splitOnChar ' ' trimmed with
  | p0 :: p1 :: _ =>
    match parseRange p0 with
    | .error e => .error e
    | .ok (oldStart, oldLines) =>
      match parseRange p1 with
      | .error e => .error e
      | .ok (newStart, newLines) =>
        .ok (line, oldStart, oldLines, newStart, newLines)
  | _ => .error .malformedHunkHeader

/-- Append a `DiffLine` to the last hunk of a hunk list (the Go code appends
through the `currentHunk` pointer, which aliases the last element of
`currentFile.Hunks`). -/
def appendToLast (hunks : List DiffHunk) (line : DiffLine) : List DiffHunk :=
  match hunks with
  | [] => []
  | [h] => [{ h with lines := h.lines ++ [line] }]
  | h :: rest => h :: appendToLast rest line

/-- The scanner state of `ParseUnifiedDiff`: flushed files, the open file (Go:
`currentFile` pointer, `none` before the first file marker), whether a hunk is
open (Go: `currentHunk != nil`), and the running line counters. -/
structure PState where
  files : List DiffFile
  current : Option DiffFile
  hunkOpen : Bool
  oldLine : Int
  newLine : Int

/-- `flushFile` from `ParseUnifiedDiff`: append the open file, if any, to the
finished list. -/
def flushFile (st : PState) : List DiffFile :=
  st.files ++ (match st.current with | some f => [f] | none => [])

/-- The line loop of `ParseUnifiedDiff` (`for scanner.Scan()` ... plus the
final `flushFile`), one branch per Go branch, in source order. -/
def processLines (st : PState) : List GoStr → Except DiffError (List DiffFile)
  | [] => .ok (flushFile st)
  | line :: rest =>
    if hasPrefixStr (gs "diff --git ") line then
      processLines ⟨flushFile st, some ⟨[], []⟩, false, st.oldLine, st.newLine⟩ rest
    else
      match st.current with
      | none => processLines st rest
      | some f =>
        if hasPrefixStr (gs "+++ ") line then
          let path := trimPrefixStr (gs "b/") (goTrimSpace (trimPrefixStr (gs "+++ ") line))
          let f := if path ≠ gs "/dev/null" then { f with path := path } else f
          processLines { st with current := some f } rest
        else if hasPrefixStr (gs "@@") line then
          match parseHunkHeader line with
          | .error e => .error e
          | .ok (header, oldStart, oldLines, newStart, newLines) =>
            let f := { f with hunks := f.hunks ++ [⟨header, [], oldStart, oldLines, newStart, newLines⟩] }
            processLines ⟨st.files, some f, true, oldStart, newStart⟩ rest
        else if !st.hunkOpen then processLines st rest
        else if line = gs "\\ No newline at end of file" then processLines st rest
        else if hasPrefixStr (gs "+") line then
          let f := { f with hunks := appendToLast f.hunks ⟨.add, 0, st.newLine, trimPrefixStr (gs "+") line⟩ }
          processLines ⟨st.files, some f, st.hunkOpen, st.oldLine, st.newLine + 1⟩ rest
        else if hasPrefixStr (gs "-") line then
          let f := { f with hunks := appendToLast f.hunks ⟨.del, st.oldLine, 0, trimPrefixStr (gs "-") line⟩ }
          processLines ⟨st.files, some f, st.hunkOpen, st.oldLine + 1, st.newLine⟩ rest
        else if hasPrefixStr (gs " ") line then
          let f := { f with hunks := appendToLast f.hunks ⟨.context, st.oldLine, st.newLine, trimPrefixStr (gs " ") line⟩ }
          processLines ⟨st.files, some f, st.hunkOpen, st.oldLine + 1, st.newLine + 1⟩ rest
        else processLines st rest

/-- `ParseUnifiedDiff` from `diff.go`: reject whitespace-only input as
`EmptyDiff`, otherwise scan the lines from the empty state. -/
def parseUnifiedDiff (diff : GoStr) : Except DiffError (List DiffFile) :=
  if goTrimSpace diff = [] then .error .emptyDiff
  else processLines ⟨[], none, false, 0, 0⟩ (goLines diff)

/-! ## Diff rendering (`internal/review/diff_render.go`) -/

/-- The prefix character the renderer writes for a line kind. -/
def kindMarker : DiffLineKind → GoStr
  | .add => gs "+"
  | .del => gs "-"
  | .context => gs " "

/-- The logical lines `RenderUnifiedDiffFile` writes, in order: the synthetic
`diff --git` / `---` / `+++` file header, then per hunk its header followed by
each line re-prefixed by its kind marker. -/
def renderLines (file : DiffFile) : List GoStr :=
  [gs "diff --git a/" ++ file.path ++ gs " b/" ++ file.path,
   gs "--- a/" ++ file.path,
   gs "+++ b/" ++ file.path] ++
  file.hunks.flatMap
    (fun hunk => hunk.header :: hunk.lines.map (fun l => kindMarker l.kind ++ l.text))

/-- Model of `strings.TrimRight(s, "\n")`: drop every trailing newline. -/
def trimRightNL (s : GoStr) : GoStr :=
  (s.reverse.dropWhile (fun c => c = '\n')).reverse

/-- `RenderUnifiedDiffFile` from `diff_render.go`: the builder writes each
logical line followed by `"\n"`, and the result is `strings.TrimRight`-ed of
trailing newlines. -/
def renderUnifiedDiffFile (file : DiffFile) : GoStr :=
  trimRightNL ((renderLines file).flatMap (fun l => l ++ ['\n']))

/-- Structural facts every parsed hunk satisfies (its header is a whole
scanned line beginning with `@@`, its line texts are suffixes of scanned
lines): newline-free texts and a non-empty, newline-free header. -/
def wfHunk (hunk : DiffHunk) : Prop :=
  '\n' ∉ hunk.header ∧ hunk.header ≠ [] ∧ ∀ l ∈ hunk.lines, '\n' ∉ l.text

/-- Structural facts every parsed file satisfies: a newline-free path and
well-formed hunks. -/
def wfFile (file : DiffFile) : Prop :=
  '\n' ∉ file.path ∧ ∀ h ∈ file.hunks, wfHunk h

/-! ## Review orchestrator (`Run`, `parseFileComments`, `generateVerdict`)

The backend (`llm.Client.ChatCompletion`) and the JSON decoder
(`encoding/json.Unmarshal`) are external collaborators.  A per-file backend
call is modelled by an oracle value `FileCall`: the call failed, the response
was not decodable JSON, or it decoded to a list of raw comment entries
(`RawComment` mirrors the anonymous struct `parseFileComments` decodes into).
The verdict call is modelled likewise by `VerdictCall`.  The worker pool and
the results channel deliver exactly one `fileReviewResult` per input file in
an unspecified arrival order; arrival is modelled as input order (every
theorem below is insensitive to that choice, see each statement). -/

/-- One decoded entry of the per-file response JSON (the anonymous struct in
`parseFileComments`). -/
structure RawComment where
  filePath : GoStr
  startLine : Int
  endLine : Int
  severity : GoStr
  title : GoStr
  body : GoStr
  suggestion : Option GoStr
  evidence : Option GoStr
  tags : List GoStr
deriving DecidableEq, Repr

/-- `trimOptional` from the review package. -/
def trimOptional (value : Option GoStr) : Option GoStr :=
  match value with
  | none => none
  | some s =>
    let trimmed := goTrimSpace s
    if trimmed = [] then none else some trimmed

/-- The `Comment` built from one decoded entry in `parseFileComments`
(trimmed fields, normalized severity, `Publish` true, zero-valued `ID`). -/
def decodeComment (item : RawComment) : Comment :=
  { id := []
    filePath := goTrimSpace item.filePath
    startLine := item.startLine
    endLine := item.endLine
    severity := normalizeSeverity item.severity
    title := goTrimSpace item.title
    body := goTrimSpace item.body
    suggestion := trimOptional item.suggestion
    evidence := trimOptional item.evidence
    tags := item.tags
    publish := true }

/-- The two `continue` guards of `parseFileComments`, negated: a decoded
comment is kept iff its line numbers are positive and ordered and its
(trimmed) file path, title and body are non-empty. -/
def commentValid (c : Comment) : Bool :=
  if c.startLine ≤ 0 ∨ c.endLine ≤ 0 ∨ c.endLine < c.startLine then false
  else if c.filePath = [] ∨ c.title = [] ∨ c.body = [] then false
  else true

/-- The filtering loop of `parseFileComments`, applied to an
already-JSON-decoded entry list: build each comment and keep the valid
ones, in response order. -/
def parseFileCommentsDecoded (items : List RawComment) : List Comment :=
  (items.map decodeComment).filter commentValid

/-- Outcome of the per-file backend call followed by JSON decoding. -/
inductive FileCall where
  | chatFailed
  | badJson
  | okJson (items : List RawComment)

/-- Which step of a file's processing failed (`ChatCompletion` error, or the
`json.Unmarshal` error inside `parseFileComments`). -/
inductive FileErrKind where
  | chatFailed
  | badJson
deriving DecidableEq, Repr

/-- `fileReviewResult` from the review package. -/
structure FileReviewResult where
  comments : List Comment
  err : Option FileErrKind
  filePath : GoStr
deriving DecidableEq, Repr

/-- The worker body of `Run`: a file with no hunks yields nil comments with
no backend call; otherwise the backend call result is parsed, and either step
failing is recorded as the result's error (comments stay nil in both error
cases — `parseFileComments` returns a nil list alongside its error). -/
def processFile (oracle : DiffFile → FileCall) (file : DiffFile) : FileReviewResult :=
  if file.hunks = [] then ⟨[], none, file.path⟩
  else
    match oracle file with
    | .chatFailed => ⟨[], some .chatFailed, file.path⟩
    | .badJson => ⟨[], some .badJson, file.path⟩
    | .okJson items => ⟨parseFileCommentsDecoded items, none, file.path⟩

/-- `firstErr` of `Run`'s collection loop: the first arriving result whose
error is set, if any. -/
def firstError : List FileReviewResult → Option (GoStr × FileErrKind)
  | [] => none
  | r :: rest =>
    match r.err with
    | some kind => some (r.filePath, kind)
    | none => firstError rest

/-- The run-level errors `Run` can return (guideline loading, which only
feeds prompt text, is outside the model): the upfront empty-input check
`errors.New("no diff files to review")`, and the wrapped first per-file error
`fmt.Errorf("review failed for %s: %w", ...)`. -/
inductive RunError where
  | noFiles
  | fileFailed (path : GoStr) (kind : FileErrKind)
deriving DecidableEq, Repr

/-- Outcome of the verdict-summary backend call followed by JSON decoding
(`generateVerdict`): call failure, undecodable JSON, or the decoded
`decision` / `summary` / `rationale` fields. -/
inductive VerdictCall where
  | chatFailed
  | badJson
  | okJson (decision summary : GoStr) (rationale : List GoStr)

/-- `generateVerdict` from the review package: a failed call or undecodable
JSON is an error; otherwise the verdict is the normalized decision, trimmed
summary, rationale as decoded, and the supplied stats. -/
def generateVerdict (call : VerdictCall) (stats : Stats) : Except FileErrKind Verdict :=
  match call with
  | .chatFailed => .error .chatFailed
  | .badJson => .error .badJson
  | .okJson decision summary rationale =>
    .ok ⟨normalizeDecision decision, goTrimSpace summary, rationale, stats⟩

/-- The tail of `Run` (source lines after the collection loop): dedupe, compute
stats, derive the rule decision, call `generateVerdict`, fall back to the
canned rule-based verdict on error, otherwise reconcile (`NO_GO` if either the
rule or the model says so) and default a blank summary; the `Result` literal
sets `Comments`, `Verdict`, `Model` and `GuidelineHash` and leaves `Dropped`
at its zero value. -/
def finishRun (collected : List Comment) (verdictCall : VerdictCall)
    (model guidelineHash : GoStr) : Result :=
  let deduped := dedupeComments collected
  let stats := computeStats deduped
  let ruleDecision := if stats.blocker > 0 then Decision.noGo else Decision.go
  let verdict :=
    match generateVerdict verdictCall stats with
    | .error _ =>
      Verdict.mk ruleDecision (gs "Verdict unavailable due to parsing error.")
        [gs "Defaulted to rule-based decision."] stats
    | .ok v =>
      let finalDecision :=
        if ruleDecision = Decision.noGo ∨ v.decision = Decision.noGo then Decision.noGo
        else v.decision
      let v := { v with decision := finalDecision, stats := stats }
      if goTrimSpace v.summary = [] then { v with summary := gs "Summary unavailable." }
      else v
  ⟨deduped, verdict, model, guidelineHash, 0⟩

/-- `Run` from the review package: fail upfront on an empty file list;
process every file (worker pool modelled as in-order processing — each input
file yields exactly one result and the loop runs until all have arrived);
if any file's result carried an error, return the first such error and no
`Result`; otherwise compose the verdict and the `Result`. -/
def runModel (files : List DiffFile) (oracle : DiffFile → FileCall)
    (verdictCall : VerdictCall) (model guidelineHash : GoStr) :
    Except RunError Result :=
  if files = [] then .error .noFiles
  else
    let results := files.map (processFile oracle)
    let collected := results.flatMap (fun r => r.comments)
    match firstError results with
    | some (path, kind) => .error (.fileFailed path kind)
    | none => .ok (finishRun collected verdictCall model guidelineHash)

/-! ## Concrete sample values used by witnesses and counterexamples -/

/-- A concrete comment (with blank ID, as produced by `parseFileComments`). -/
def cSample : Comment :=
  ⟨[], gs "a.go", 3, 4, .issue, gs "Title", gs "Body", none, some (gs "E1"), [], true⟩

/-- The same comment except for its `Evidence` field. -/
def cSampleAlt : Comment := { cSample with evidence := some (gs "E2") }

/-- A concrete one-line hunk. -/
def hunkSample : DiffHunk := ⟨gs "@@ -1 +1 @@", [⟨.add, 0, 1, gs "x"⟩], 1, 1, 1, 1⟩

/-- A diff file whose backend call will be made to fail. -/
def fileA : DiffFile := ⟨gs "a.go", [hunkSample]⟩

/-- A diff file whose backend call succeeds. -/
def fileB : DiffFile := ⟨gs "b.go", [hunkSample]⟩

/-- A schema-valid decoded comment entry. -/
def rawGood : RawComment := ⟨gs "b.go", 1, 1, gs "ISSUE", gs "t", gs "b", none, none, []⟩

/-- A schema-invalid decoded comment entry (`endLine < startLine`). -/
def rawBad : RawComment := ⟨gs "c.go", 5, 4, gs "ISSUE", gs "t", gs "b", none, none, []⟩

/-- A backend oracle that fails the call for `a.go` and returns one valid
comment for every other file. -/
def oracleFailA : DiffFile → FileCall :=
  fun f => if f.path = gs "a.go" then .chatFailed else .okJson [rawGood]

/-- A concrete three-line unified diff. -/
def sampleDiffText : GoStr :=
  gs "diff --git a/f b/f\n--- a/f\n+++ b/f\n@@ -1,2 +1,2 @@\n ctx\n-old\n+new\n"

/-- The `DiffFile` the parser produces for `sampleDiffText`. -/
def sampleParsedFile : DiffFile :=
  ⟨gs "f",
   [⟨gs "@@ -1,2 +1,2 @@",
     [⟨.context, 1, 1, gs "ctx"⟩, ⟨.del, 2, 0, gs "old"⟩, ⟨.add, 0, 2, gs "new"⟩],
     1, 2, 1, 2⟩]⟩

/-! ## Helper lemmas -/

/-- Comments that agree on the normalized identity tuple feed the same byte
stream to the ID hasher. -/
theorem stableCommentID_congr (c1 c2 : Comment)
    (hf : goTrimSpace c1.filePath = goTrimSpace c2.filePath)
    (hs : c1.startLine = c2.startLine) (he : c1.endLine = c2.endLine)
    (hv : c1.severity = c2.severity)
    (ht : goTrimSpace c1.title = goTrimSpace c2.title)
    (hb : goTrimSpace c1.body = goTrimSpace c2.body) :
    stableCommentID c1 = stableCommentID c2 := by
  simp [stableCommentID, hf, hs, he, hv, ht, hb]

/-- Deduplicating a two-element list whose members share an identity keeps
exactly the first element (with its stable ID assigned). -/
theorem dedupe_pair (c1 c2 : Comment)
    (h1 : goTrimSpace c1.id = []) (h2 : goTrimSpace c2.id = [])
    (hid : stableCommentID c1 = stableCommentID c2) :
    dedupeComments [c1, c2] = [{ c1 with id := stableCommentID c1 }] := by
  simp [dedupeComments, assignID, h1, h2, hid]

/-! ## Claim theorems -/

/-- C1 (code bug evidence): with two one-hunk files where the backend call
fails for `a.go` and succeeds for `b.go` with one valid comment, `Run` returns
the wrapped error for `a.go` and no `Result` at all: the successful file's
comments are discarded and no per-file error map is produced (the `Result`
struct has no such field).  Processing of `b.go` is not stopped — every file's
result is still consumed — but the run aborts instead of yielding a `Result`
with the failure recorded per file.  (With a single failing file this outcome
is the same under every arrival order of the worker results.) -/
theorem c1_run_aborts_on_file_failure :
    runModel [fileA, fileB] oracleFailA (.okJson (gs "GO") (gs "s") []) (gs "m") (gs "h") =
      .error (.fileFailed (gs "a.go") .chatFailed) := by rfl

/-- C2 (code bug evidence): a response that decodes to one valid and one
schema-invalid entry (`endLine < startLine`) yields a successful `Result`
containing only the valid comment — the invalid entry is dropped and does not
fail the file — but the `Result`'s `Dropped` field is `0`, not `1`: the drop
is never counted (`parseFileComments` has no counter and `Run`'s `Result`
literal leaves `Dropped` at its zero value). -/
theorem c2_dropped_entry_not_counted :
    runModel [fileB] (fun _ => .okJson [rawGood, rawBad]) (.okJson (gs "GO") (gs "sum") [])
        (gs "m") (gs "h") =
      .ok ⟨[{ decodeComment rawGood with id := stableCommentID (decodeComment rawGood) }],
           ⟨.go, gs "sum", [], ⟨0, 0, 1, 0⟩⟩, gs "m", gs "h", 0⟩ := by rfl

/-- C3: for every collected comment list and every successfully parsed model
verdict, the final decision of the composed run is `NO_GO` exactly when the
rule decision fires (`Stats.Blocker > 0` on the deduped list) or the
normalized model decision is `NO_GO`; with no blockers the final decision is
`GO` exactly when the model decision is `GO`. -/
theorem c3_final_decision_iff_rule_or_model_no_go
    (collected : List Comment) (d s : GoStr) (r : List GoStr) (model ghash : GoStr) :
    (finishRun collected (.okJson d s r) model ghash).verdict.decision = Decision.noGo ↔
      0 < (computeStats (dedupeComments collected)).blocker ∨
        normalizeDecision d = Decision.noGo := by
  simp only [finishRun, generateVerdict]
  by_cases hb : 0 < (computeStats (dedupeComments collected)).blocker <;>
    cases hd : normalizeDecision d <;>
      simp [hb, hd, apply_ite Verdict.decision]

/-- C4: whenever the verdict-summary backend call fails or its response is
unparsable JSON, and the per-file phase produced no error, the run still
returns a successful `Result` whose verdict is the deterministic fallback:
the rule decision, the canned summary and rationale, and the computed stats.
Verdict generation never propagates an error that aborts the run. -/
theorem c4_verdict_failure_falls_back
    (files : List DiffFile) (oracle : DiffFile → FileCall) (vc : VerdictCall)
    (model ghash : GoStr) (hne : files ≠ [])
    (hok : firstError (files.map (processFile oracle)) = none)
    (hfail : vc = VerdictCall.chatFailed ∨ vc = VerdictCall.badJson) :
    runModel files oracle vc model ghash =
      .ok ⟨dedupeComments ((files.map (processFile oracle)).flatMap (fun r => r.comments)),
           ⟨(if 0 < (computeStats (dedupeComments ((files.map (processFile oracle)).flatMap
                  (fun r => r.comments)))).blocker then Decision.noGo else Decision.go),
            gs "Verdict unavailable due to parsing error.",
            [gs "Defaulted to rule-based decision."],
            computeStats (dedupeComments ((files.map (processFile oracle)).flatMap
              (fun r => r.comments)))⟩,
           model, ghash, 0⟩ := by
  rcases hfail with h | h <;> subst h <;>
    simp [runModel, hne, hok, finishRun, generateVerdict]

/-- C4 witness: the fallback at a concrete run — one file, a backend returning
no comments, and a failed verdict call. -/
theorem c4_witness :
    runModel [fileB] (fun _ => .okJson []) VerdictCall.chatFailed (gs "m") (gs "h") =
      .ok ⟨dedupeComments (([fileB].map (processFile (fun _ => .okJson []))).flatMap
            (fun r => r.comments)),
           ⟨(if 0 < (computeStats (dedupeComments (([fileB].map (processFile
                  (fun _ => .okJson []))).flatMap (fun r => r.comments)))).blocker
              then Decision.noGo else Decision.go),
            gs "Verdict unavailable due to parsing error.",
            [gs "Defaulted to rule-based decision."],
            computeStats (dedupeComments (([fileB].map (processFile
              (fun _ => .okJson []))).flatMap (fun r => r.comments)))⟩,
           gs "m", gs "h", 0⟩ :=
  c4_verdict_failure_falls_back [fileB] (fun _ => .okJson []) VerdictCall.chatFailed
    (gs "m") (gs "h") (by simp) (by rfl) (Or.inl rfl)

/-- C5 counterexample: deduplication is not order-deterministic.  Two comments
equal in the identity tuple but different in `Evidence` produce different
outputs depending on input order (each order keeps its first arrival), so two
permutations of the same multiset yield different deduplicated lists. -/
theorem c5_counterexample_order_dependent :
    dedupeComments [cSample, cSampleAlt] ≠ dedupeComments [cSampleAlt, cSample] := by
  decide

/-- C5 (amended): `dedupeComments` imposes no deterministic ordering — the
first occurrence per identity wins in arrival order, so for two comments that
share the identity tuple but differ in `Evidence`, each input order keeps its
own first element and the two permutations produce different outputs. -/
theorem c5_dedupe_first_occurrence_order_dependent (c1 c2 : Comment)
    (h1 : goTrimSpace c1.id = []) (h2 : goTrimSpace c2.id = [])
    (hf : goTrimSpace c1.filePath = goTrimSpace c2.filePath)
    (hs : c1.startLine = c2.startLine) (he : c1.endLine = c2.endLine)
    (hv : c1.severity = c2.severity)
    (ht : goTrimSpace c1.title = goTrimSpace c2.title)
    (hb : goTrimSpace c1.body = goTrimSpace c2.body)
    (hev : c1.evidence ≠ c2.evidence) :
    dedupeComments [c1, c2] = [{ c1 with id := stableCommentID c1 }] ∧
    dedupeComments [c2, c1] = [{ c2 with id := stableCommentID c2 }] ∧
    dedupeComments [c1, c2] ≠ dedupeComments [c2, c1] := by
  have hid := stableCommentID_congr c1 c2 hf hs he hv ht hb
  have e1 := dedupe_pair c1 c2 h1 h2 hid
  have e2 := dedupe_pair c2 c1 h2 h1 hid.symm
  refine ⟨e1, e2, ?_⟩
  rw [e1, e2]
  intro hcontra
  simp only [List.cons.injEq, and_true] at hcontra
  have hevEq := congrArg Comment.evidence hcontra
  exact hev hevEq

/-- C5 witness: the amended statement applied to the two concrete comments
that differ only in `Evidence`. -/
theorem c5_witness :
    dedupeComments [cSample, cSampleAlt] = [{ cSample with id := stableCommentID cSample }] ∧
    dedupeComments [cSampleAlt, cSample] =
      [{ cSampleAlt with id := stableCommentID cSampleAlt }] ∧
    dedupeComments [cSample, cSampleAlt] ≠ dedupeComments [cSampleAlt, cSample] :=
  c5_dedupe_first_occurrence_order_dependent cSample cSampleAlt rfl rfl rfl rfl rfl rfl
    rfl rfl (by decide)

/-- C6: two comments that agree on the normalized identity tuple `(filePath,
startLine, endLine, severity, title, body)` — whatever their `Evidence`,
`Suggestion` or `Tags` — receive the same dedup identity hash and collapse to
a single comment, the first occurrence, after deduplication. -/
theorem c6_same_tuple_same_id_collapse (c1 c2 : Comment)
    (h1 : goTrimSpace c1.id = []) (h2 : goTrimSpace c2.id = [])
    (hf : goTrimSpace c1.filePath = goTrimSpace c2.filePath)
    (hs : c1.startLine = c2.startLine) (he : c1.endLine = c2.endLine)
    (hv : c1.severity = c2.severity)
    (ht : goTrimSpace c1.title = goTrimSpace c2.title)
    (hb : goTrimSpace c1.body = goTrimSpace c2.body) :
    stableCommentID c1 = stableCommentID c2 ∧
    dedupeComments [c1, c2] = [{ c1 with id := stableCommentID c1 }] := by
  have hid := stableCommentID_congr c1 c2 hf hs he hv ht hb
  exact ⟨hid, dedupe_pair c1 c2 h1 h2 hid⟩

/-- C6 witness: the collapse at two concrete comments differing only in
`Evidence`. -/
theorem c6_witness :
    stableCommentID cSample = stableCommentID cSampleAlt ∧
    dedupeComments [cSample, cSampleAlt] = [{ cSample with id := stableCommentID cSample }] :=
  c6_same_tuple_same_id_collapse cSample cSampleAlt rfl rfl rfl rfl rfl rfl rfl rfl

/-- C8: `@@ -10,5 +12,7 @@` parses to `oldStart=10, oldLines=5, newStart=12,
newLines=7` (with the raw line kept as the header), and `@@ -1 +1,2 @@`
defaults the omitted old-side count to 1. -/
theorem c8_hunk_header_numbers :
    parseHunkHeader (gs "@@ -10,5 +12,7 @@") = .ok (gs "@@ -10,5 +12,7 @@", 10, 5, 12, 7) ∧
    parseHunkHeader (gs "@@ -1 +1,2 @@") = .ok (gs "@@ -1 +1,2 @@", 1, 1, 1, 2) :=
  ⟨rfl, rfl⟩

/-- C10: `NormalizeDecision` returns `NO_GO` exactly when the trimmed,
upper-cased input is `NO_GO`, `NO-GO` or `NOGO`, and `GO` for every other
string — an empty or misspelled decision is silently treated as `GO`, never
rejected — and `generateVerdict` wires the decoded decision field through
`NormalizeDecision` unchanged. -/
theorem c10_normalize_decision_total :
    (∀ s : GoStr, normalizeDecision s = Decision.noGo ↔
      (goToUpper (goTrimSpace s) = gs "NO_GO" ∨ goToUpper (goTrimSpace s) = gs "NO-GO" ∨
        goToUpper (goTrimSpace s) = gs "NOGO")) ∧
    normalizeDecision (gs "") = Decision.go ∧
    normalizeDecision (gs "NO GO") = Decision.go ∧
    normalizeDecision (gs " no-go ") = Decision.noGo ∧
    (∀ (d s : GoStr) (r : List GoStr) (stats : Stats),
      generateVerdict (.okJson d s r) stats =
        .ok ⟨normalizeDecision d, goTrimSpace s, r, stats⟩) := by
  refine ⟨fun s => ?_, rfl, rfl, rfl, fun d s r stats => rfl⟩
  by_cases h : goToUpper (goTrimSpace s) = gs "NO_GO" ∨ goToUpper (goTrimSpace s) = gs "NO-GO" ∨
      goToUpper (goTrimSpace s) = gs "NOGO" <;>
    simp [normalizeDecision, h]

-- parseRange only produces the malformed-header error
theorem parseRange_error_eq (v : GoStr) (e : DiffError)
    (h : parseRange v = .error e) : e = .malformedHunkHeader := by
  unfold parseRange at h
  rcases hsp : splitOnChar ',' (trimPrefixStr (gs "+") (trimPrefixStr (gs "-") v)) with _ | ⟨p, rest⟩
  · simp [hsp] at h
    exact h.symm
  · rcases hat : atoi p with _ | st
    · simp [hsp, hat] at h
      exact h.symm
    · rcases rest with _ | ⟨q, tail⟩
      · simp [hsp, hat] at h
      · rcases haq : atoi q with _ | ln
        · simp [hsp, hat, haq] at h
          exact h.symm
        · simp [hsp, hat, haq] at h

theorem parseHunkHeader_error_eq (line : GoStr) (e : DiffError)
    (h : parseHunkHeader line = .error e) : e = .malformedHunkHeader := by
  unfold parseHunkHeader at h
  rcases hsp : splitOnChar ' ' (goTrimSpace (trimSuffixStr (gs "@@") (trimPrefixStr (gs "@@") line)))
    with _ | ⟨p0, rest⟩
  · simp [hsp] at h
    exact h.symm
  · rcases rest with _ | ⟨p1, tail⟩
    · simp [hsp] at h
      exact h.symm
    · rcases hr0 : parseRange p0 with e0 | ⟨os, ol⟩
      · simp [hsp, hr0] at h
        exact h ▸ parseRange_error_eq p0 e0 hr0
      · rcases hr1 : parseRange p1 with e1 | ⟨ns, nl⟩
        · simp [hsp, hr0, hr1] at h
          exact h ▸ parseRange_error_eq p1 e1 hr1
        · simp [hsp, hr0, hr1] at h

-- a line with the "@@" prefix starts with two at-signs
theorem atat_shape (line : GoStr) (h : hasPrefixStr (gs "@@") line = true) :
    ∃ tl, line = '@' :: '@' :: tl := by
  match line with
  | [] => simp [hasPrefixStr, gs, List.isPrefixOf] at h
  | [c] => simp [hasPrefixStr, gs, List.isPrefixOf] at h
  | c1 :: c2 :: tl =>
    simp [hasPrefixStr, gs, List.isPrefixOf] at h
    obtain ⟨h1, h2⟩ := h
    subst h1
    subst h2
    exact ⟨tl, rfl⟩

theorem diffgit_not_atat (tl : List Char) :
    hasPrefixStr (gs "diff --git ") ('@' :: '@' :: tl) = false := by
  simp [hasPrefixStr, gs, List.isPrefixOf]

theorem plusplus_not_atat (tl : List Char) :
    hasPrefixStr (gs "+++ ") ('@' :: '@' :: tl) = false := by
  simp [hasPrefixStr, gs, List.isPrefixOf]

theorem atat_pre (tl : List Char) :
    hasPrefixStr (gs "@@") ('@' :: '@' :: tl) = true := by
  simp [hasPrefixStr, gs, List.isPrefixOf]

theorem processLines_bad_head (st : PState) (f : DiffFile) (hf : st.current = some f)
    (tl : List Char) (rest : List GoStr)
    (herr : parseHunkHeader ('@' :: '@' :: tl) = .error .malformedHunkHeader) :
    processLines st (('@' :: '@' :: tl) :: rest) = .error .malformedHunkHeader := by
  simp only [processLines, diffgit_not_atat, plusplus_not_atat, atat_pre, hf, herr]
  simp

theorem processLines_error_of_bad (lines : List GoStr) :
    ∀ st : PState, st.current.isSome = true →
    (∃ bad ∈ lines, hasPrefixStr (gs "@@") bad = true ∧
      parseHunkHeader bad = .error .malformedHunkHeader) →
    processLines st lines = .error .malformedHunkHeader := by
  induction lines with
  | nil =>
    rintro st _ ⟨bad, hmem, _⟩
    simp at hmem
  | cons l rest ih =>
    rintro st hst ⟨bad, hmem, hpre, herr⟩
    obtain ⟨f, hf⟩ := Option.isSome_iff_exists.mp hst
    rcases List.mem_cons.mp hmem with rfl | hmemr
    · obtain ⟨tl, rfl⟩ := atat_shape _ hpre
      exact processLines_bad_head st f hf tl rest herr
    · have hrest : ∃ bad ∈ rest, hasPrefixStr (gs "@@") bad = true ∧
          parseHunkHeader bad = .error .malformedHunkHeader := ⟨bad, hmemr, hpre, herr⟩
      simp only [processLines]
      by_cases h1 : hasPrefixStr (gs "diff --git ") l = true
      · rw [if_pos h1]
        exact ih _ rfl hrest
      rw [if_neg h1, hf]
      simp only []
      by_cases h2 : hasPrefixStr (gs "+++ ") l = true
      · rw [if_pos h2]
        exact ih _ rfl hrest
      rw [if_neg h2]
      by_cases h3 : hasPrefixStr (gs "@@") l = true
      · rw [if_pos h3]
        rcases hph : parseHunkHeader l with e | ⟨hdr, os, ol, ns, nl⟩
        · have := parseHunkHeader_error_eq l e hph
          simp [hph, this]
        · simp only [hph]
          exact ih _ rfl hrest
      rw [if_neg h3]
      by_cases h4 : (!st.hunkOpen) = true
      · rw [if_pos h4]
        exact ih _ hst hrest
      rw [if_neg h4]
      by_cases h5 : l = gs "\\ No newline at end of file"
      · rw [if_pos h5]
        exact ih _ hst hrest
      rw [if_neg h5]
      by_cases h6 : hasPrefixStr (gs "+") l = true
      · rw [if_pos h6]
        exact ih _ rfl hrest
      rw [if_neg h6]
      by_cases h7 : hasPrefixStr (gs "-") l = true
      · rw [if_pos h7]
        exact ih _ rfl hrest
      rw [if_neg h7]
      by_cases h8 : hasPrefixStr (gs " ") l = true
      · rw [if_pos h8]
        exact ih _ rfl hrest
      rw [if_neg h8]
      exact ih _ hst hrest

theorem processLines_reaches (pre : List GoStr) :
    ∀ (st : PState) (d : GoStr) (v : List GoStr),
    hasPrefixStr (gs "diff --git ") d = true →
    (∃ bad ∈ v, hasPrefixStr (gs "@@") bad = true ∧
      parseHunkHeader bad = .error .malformedHunkHeader) →
    processLines st (pre ++ d :: v) = .error .malformedHunkHeader := by
  induction pre with
  | nil =>
    intro st d v hd hbad
    simp only [List.nil_append, processLines]
    rw [if_pos hd]
    exact processLines_error_of_bad v _ rfl hbad
  | cons p pre' ih =>
    intro st d v hd hbad
    simp only [List.cons_append, processLines]
    by_cases h1 : hasPrefixStr (gs "diff --git ") p = true
    · rw [if_pos h1]
      exact ih _ d v hd hbad
    rw [if_neg h1]
    rcases hcur : st.current with _ | f
    · exact ih _ d v hd hbad
    simp only []
    by_cases h2 : hasPrefixStr (gs "+++ ") p = true
    · rw [if_pos h2]
      exact ih _ d v hd hbad
    rw [if_neg h2]
    by_cases h3 : hasPrefixStr (gs "@@") p = true
    · rw [if_pos h3]
      rcases hph : parseHunkHeader p with e | ⟨hdr, os, ol, ns, nl⟩
      · have := parseHunkHeader_error_eq p e hph
        simp [hph, this]
      · simp only [hph]
        exact ih _ d v hd hbad
    rw [if_neg h3]
    by_cases h4 : (!st.hunkOpen) = true
    · rw [if_pos h4]
      exact ih _ d v hd hbad
    rw [if_neg h4]
    by_cases h5 : p = gs "\\ No newline at end of file"
    · rw [if_pos h5]
      exact ih _ d v hd hbad
    rw [if_neg h5]
    by_cases h6 : hasPrefixStr (gs "+") p = true
    · rw [if_pos h6]
      exact ih _ d v hd hbad
    rw [if_neg h6]
    by_cases h7 : hasPrefixStr (gs "-") p = true
    · rw [if_pos h7]
      exact ih _ d v hd hbad
    rw [if_neg h7]
    by_cases h8 : hasPrefixStr (gs " ") p = true
    · rw [if_pos h8]
      exact ih _ d v hd hbad
    rw [if_neg h8]
    exact ih _ d v hd hbad

theorem splitOnChar_ne_nil (sep : Char) (s : GoStr) : splitOnChar sep s ≠ [] := by
  induction s with
  | nil => simp [splitOnChar]
  | cons c rest ih =>
    simp only [splitOnChar]
    rcases h : splitOnChar sep rest with _ | ⟨a, as⟩
    · simp only [h]
      simp
    · simp only [h]
      split <;> simp

theorem mem_of_mem_splitOnChar (sep : Char) (s : GoStr) :
    ∀ l ∈ splitOnChar sep s, ∀ c ∈ l, c ∈ s := by
  induction s with
  | nil =>
    intro l hl c hc
    simp [splitOnChar] at hl
    subst hl
    simp at hc
  | cons a rest ih =>
    intro l hl c hc
    rcases h : splitOnChar sep rest with _ | ⟨b, bs⟩
    · exact absurd h (splitOnChar_ne_nil sep rest)
    simp only [splitOnChar, h] at hl
    by_cases hsep : a = sep
    · rw [if_pos hsep] at hl
      rcases List.mem_cons.mp hl with rfl | hl2
      · simp at hc
      · exact List.mem_cons_of_mem a (ih l (h ▸ hl2) c hc)
    · rw [if_neg hsep] at hl
      rcases List.mem_cons.mp hl with rfl | hl2
      · rcases List.mem_cons.mp hc with rfl | hc2
        · exact List.mem_cons_self _ _
        · have hb : b ∈ splitOnChar sep rest := by
            rw [h]
            exact List.mem_cons_self b bs
          exact List.mem_cons_of_mem a (ih b hb c hc2)
      · have hmem : l ∈ splitOnChar sep rest := by
          rw [h]
          exact List.mem_cons_of_mem b hl2
        exact List.mem_cons_of_mem a (ih l hmem c hc)

theorem mem_of_mem_goLines (s : GoStr) : ∀ l ∈ goLines s, ∀ c ∈ l, c ∈ s := by
  intro l hl c hc
  simp only [goLines] at hl
  obtain ⟨l0, hl0, rfl⟩ := List.mem_map.mp hl
  have hc0 : c ∈ l0 := by
    simp only [dropCR] at hc
    split at hc
    · exact (List.dropLast_sublist l0).subset hc
    · exact hc
  have hl0' : l0 ∈ splitOnChar '\n' s := by
    split at hl0
    · exact (List.dropLast_sublist (splitOnChar '\n' s)).subset hl0
    · exact hl0
  exact mem_of_mem_splitOnChar '\n' s l0 hl0' c hc0

theorem goTrimSpace_eq_nil_all_space (s : GoStr) (h : goTrimSpace s = []) :
    ∀ c ∈ s, isGoSpace c = true := by
  intro c hc
  simp only [goTrimSpace, List.reverse_eq_nil_iff, List.dropWhile_eq_nil_iff] at h
  have hsplit : c ∈ s.takeWhile isGoSpace ++ s.dropWhile isGoSpace := by
    rw [List.takeWhile_append_dropWhile]
    exact hc
  rcases List.mem_append.mp hsplit with h1 | h2
  · exact List.mem_takeWhile_imp h1
  · exact h c (List.mem_reverse.mpr h2)

theorem hasPrefix_d_shape (d : GoStr) (h : hasPrefixStr (gs "diff --git ") d = true) :
    ∃ tl, d = 'd' :: tl := by
  match d with
  | [] => simp [hasPrefixStr, gs, List.isPrefixOf] at h
  | c :: tl =>
    simp [hasPrefixStr, gs, List.isPrefixOf] at h
    obtain ⟨h1, h2⟩ := h
    subst h1
    exact ⟨tl, rfl⟩

/-- C7 counterexample: the input `"@@ x @@"` consists of a single line that is
a hunk-header line with the wrong token count (`parseHunkHeader` rejects it),
yet the parse of the whole input succeeds with an empty file list: a malformed
hunk header occurring before any `diff --git` file boundary is silently
skipped, so the claim "every input containing such a line fails with
MalformedHunkHeader" is false. -/
theorem c7_counterexample_header_outside_file :
    parseHunkHeader (gs "@@ x @@") = .error .malformedHunkHeader ∧
    hasPrefixStr (gs "@@") (gs "@@ x @@") = true ∧
    goLines (gs "@@ x @@") = [gs "@@ x @@"] ∧
    parseUnifiedDiff (gs "@@ x @@") = .ok [] :=
  ⟨rfl, rfl, rfl, rfl⟩

/-- C7 (amended): whitespace-only input fails with `EmptyDiff`; and whenever
the scanned lines contain, after some `diff --git ` file-boundary line, a
`@@`-prefixed line whose header does not parse (wrong token count or
non-numeric fields), the entire parse fails with `MalformedHunkHeader` and no
partial result is returned.  (A malformed header before any file boundary is
skipped, per the counterexample.) -/
theorem c7_fail_fast_amended :
    (∀ s : GoStr, goTrimSpace s = [] → parseUnifiedDiff s = .error .emptyDiff) ∧
    (∀ (s : GoStr) (pre mid post : List GoStr) (d bad : GoStr),
      goLines s = pre ++ d :: (mid ++ bad :: post) →
      hasPrefixStr (gs "diff --git ") d = true →
      hasPrefixStr (gs "@@") bad = true →
      parseHunkHeader bad = .error .malformedHunkHeader →
      parseUnifiedDiff s = .error .malformedHunkHeader) := by
  constructor
  · intro s h
    simp [parseUnifiedDiff, h]
  · intro s pre mid post d bad hlines hd hbad herr
    have htrim : goTrimSpace s ≠ [] := by
      intro hnil
      have hall := goTrimSpace_eq_nil_all_space s hnil
      obtain ⟨dtl, hdt⟩ := hasPrefix_d_shape d hd
      have hdmem : d ∈ goLines s := by
        rw [hlines]
        exact List.mem_append.mpr (Or.inr (List.mem_cons_self _ _))
      have hds : 'd' ∈ s := by
        refine mem_of_mem_goLines s d hdmem 'd' ?_
        rw [hdt]
        exact List.mem_cons_self _ _
      have := hall 'd' hds
      simp [isGoSpace] at this
    simp only [parseUnifiedDiff, if_neg htrim]
    rw [hlines]
    refine processLines_reaches pre _ d _ hd ⟨bad, ?_, hbad, herr⟩
    exact List.mem_append.mpr (Or.inr (List.mem_cons_self _ _))

/-- C7 witness: the amended theorem applied to a concrete whitespace-only
input and to a concrete two-line diff whose second line is a malformed hunk
header inside a file section. -/
theorem c7_witness :
    (goTrimSpace (gs " \n\t") = [] ∧ parseUnifiedDiff (gs " \n\t") = .error .emptyDiff) ∧
    parseUnifiedDiff (gs "diff --git a/x b/x\n@@ x @@") = .error .malformedHunkHeader :=
  ⟨⟨rfl, c7_fail_fast_amended.1 (gs " \n\t") rfl⟩,
   c7_fail_fast_amended.2 (gs "diff --git a/x b/x\n@@ x @@") [] [] []
     (gs "diff --git a/x b/x") (gs "@@ x @@") rfl rfl rfl rfl⟩

-- subset lemmas for the trimming operations
theorem mem_trimPrefixStr (p s : GoStr) (c : Char) (h : c ∈ trimPrefixStr p s) : c ∈ s := by
  simp only [trimPrefixStr] at h
  split at h
  · exact List.drop_subset _ _ h
  · exact h

theorem mem_goTrimSpace (s : GoStr) (c : Char) (h : c ∈ goTrimSpace s) : c ∈ s := by
  simp only [goTrimSpace, List.mem_reverse] at h
  have h2 := List.dropWhile_sublist (l := (s.dropWhile isGoSpace).reverse) (p := isGoSpace)
  have h3 : c ∈ (s.dropWhile isGoSpace).reverse := h2.subset h
  rw [List.mem_reverse] at h3
  exact (List.dropWhile_sublist (l := s) (p := isGoSpace)).subset h3

-- members of the split never contain the separator
theorem not_sep_mem_splitOnChar (sep : Char) (s : GoStr) :
    ∀ l ∈ splitOnChar sep s, sep ∉ l := by
  induction s with
  | nil =>
    intro l hl
    simp [splitOnChar] at hl
    subst hl
    simp
  | cons a rest ih =>
    intro l hl
    rcases h : splitOnChar sep rest with _ | ⟨b, bs⟩
    · exact absurd h (splitOnChar_ne_nil sep rest)
    simp only [splitOnChar, h] at hl
    by_cases hsep : a = sep
    · rw [if_pos hsep] at hl
      rcases List.mem_cons.mp hl with rfl | hl2
      · simp
      · exact ih l (h ▸ hl2)
    · rw [if_neg hsep] at hl
      rcases List.mem_cons.mp hl with rfl | hl2
      · intro hc
        rcases List.mem_cons.mp hc with rfl | hc2
        · exact hsep rfl
        · have hb : b ∈ splitOnChar sep rest := by
            rw [h]
            exact List.mem_cons_self b bs
          exact ih b hb hc2
      · have hmem : l ∈ splitOnChar sep rest := by
          rw [h]
          exact List.mem_cons_of_mem b hl2
        exact ih l hmem

theorem nl_not_mem_goLines (s : GoStr) : ∀ l ∈ goLines s, '\n' ∉ l := by
  intro l hl
  simp only [goLines] at hl
  obtain ⟨l0, hl0, rfl⟩ := List.mem_map.mp hl
  have hl0' : l0 ∈ splitOnChar '\n' s := by
    split at hl0
    · exact (List.dropLast_sublist (splitOnChar '\n' s)).subset hl0
    · exact hl0
  intro hc
  have hc0 : '\n' ∈ l0 := by
    simp only [dropCR] at hc
    split at hc
    · exact (List.dropLast_sublist l0).subset hc
    · exact hc
  exact not_sep_mem_splitOnChar '\n' s l0 hl0' hc0

-- a successful header parse returns the raw line as the header
theorem parseHunkHeader_ok_header (line hdr : GoStr) (a b c d : Int)
    (h : parseHunkHeader line = .ok (hdr, a, b, c, d)) : hdr = line := by
  unfold parseHunkHeader at h
  rcases hsp : splitOnChar ' ' (goTrimSpace (trimSuffixStr (gs "@@") (trimPrefixStr (gs "@@") line)))
    with _ | ⟨p0, rest⟩
  · simp [hsp] at h
  rcases rest with _ | ⟨p1, tail⟩
  · simp [hsp] at h
  rcases hr0 : parseRange p0 with e0 | ⟨os, ol⟩
  · simp [hsp, hr0] at h
  rcases hr1 : parseRange p1 with e1 | ⟨ns, nl⟩
  · simp [hsp, hr0, hr1] at h
  simp [hsp, hr0, hr1] at h
  exact h.1.symm

-- appending a newline-free line text to the last hunk preserves hunk facts
theorem appendToLast_wf (hunks : List DiffHunk) (dl : DiffLine)
    (hwf : ∀ h ∈ hunks, wfHunk h) (ht : '\n' ∉ dl.text) :
    ∀ h ∈ appendToLast hunks dl, wfHunk h := by
  induction hunks with
  | nil =>
    intro h hmem
    simp [appendToLast] at hmem
  | cons h0 rest ih =>
    intro h hmem
    rcases rest with _ | ⟨h1, rest'⟩
    · simp only [appendToLast, List.mem_singleton] at hmem
      subst hmem
      obtain ⟨w1, w2, w3⟩ := hwf h0 (List.mem_cons_self _ _)
      refine ⟨w1, w2, ?_⟩
      intro l hl
      rcases List.mem_append.mp hl with hl1 | hl2
      · exact w3 l hl1
      · rw [List.mem_singleton.mp hl2]
        exact ht
    · simp only [appendToLast] at hmem
      rcases List.mem_cons.mp hmem with rfl | hmem2
      · exact hwf h (List.mem_cons_self _ _)
      · exact ih (fun x hx => hwf x (List.mem_cons_of_mem h0 hx)) h hmem2

theorem flushFile_wf (st : PState) (h1 : ∀ f ∈ st.files, wfFile f)
    (h2 : ∀ f, st.current = some f → wfFile f) : ∀ f ∈ flushFile st, wfFile f := by
  intro f hf
  simp only [flushFile] at hf
  rcases List.mem_append.mp hf with ha | hb
  · exact h1 f ha
  · rcases hcur : st.current with _ | g
    · rw [hcur] at hb
      simp at hb
    · rw [hcur] at hb
      rw [List.mem_singleton.mp hb]
      exact h2 g hcur

theorem processLines_wf (lines : List GoStr) :
    ∀ (st : PState) (files : List DiffFile),
    (∀ l ∈ lines, '\n' ∉ l) →
    (∀ f ∈ st.files, wfFile f) →
    (∀ f, st.current = some f → wfFile f) →
    processLines st lines = .ok files →
    ∀ f ∈ files, wfFile f := by
  induction lines with
  | nil =>
    intro st files _ h1 h2 hp
    simp only [processLines] at hp
    injection hp with hp
    subst hp
    exact flushFile_wf st h1 h2
  | cons l rest ih =>
    intro st files hnl h1 h2 hp
    have hnl_l : '\n' ∉ l := hnl l (List.mem_cons_self _ _)
    have hnl_rest : ∀ x ∈ rest, '\n' ∉ x := fun x hx => hnl x (List.mem_cons_of_mem l hx)
    simp only [processLines] at hp
    by_cases hb1 : hasPrefixStr (gs "diff --git ") l = true
    · rw [if_pos hb1] at hp
      refine ih _ files hnl_rest (flushFile_wf st h1 h2) ?_ hp
      intro f hf
      injection hf with hf
      subst hf
      exact ⟨by simp, by simp⟩
    rw [if_neg hb1] at hp
    rcases hcur : st.current with _ | f
    · simp only [hcur] at hp
      exact ih st files hnl_rest h1 h2 hp
    have hwf_f : wfFile f := h2 f hcur
    simp only [hcur] at hp
    by_cases hb2 : hasPrefixStr (gs "+++ ") l = true
    · rw [if_pos hb2] at hp
      refine ih _ files hnl_rest ?_ ?_ hp
      · exact h1
      intro g hg
      injection hg with hg
      subst hg
      split
      · refine ⟨?_, hwf_f.2⟩
        intro hc
        have hc2 := mem_trimPrefixStr _ _ _ hc
        have hc3 := mem_goTrimSpace _ _ hc2
        have hc4 := mem_trimPrefixStr _ _ _ hc3
        exact hnl_l hc4
      · exact hwf_f
    rw [if_neg hb2] at hp
    by_cases hb3 : hasPrefixStr (gs "@@") l = true
    · rw [if_pos hb3] at hp
      rcases hph : parseHunkHeader l with e | ⟨hdr, os, ol, ns, nl2⟩
      · simp only [hph] at hp
        exact Except.noConfusion hp
      · simp only [hph] at hp
        refine ih _ files hnl_rest ?_ ?_ hp
        · exact h1
        intro g hg
        injection hg with hg
        subst hg
        have hhdr : hdr = l := parseHunkHeader_ok_header l hdr os ol ns nl2 hph
        refine ⟨hwf_f.1, ?_⟩
        intro h hh
        rcases List.mem_append.mp hh with hh1 | hh2
        · exact hwf_f.2 h hh1
        · rw [List.mem_singleton.mp hh2]
          refine ⟨by rw [hhdr]; exact hnl_l, ?_, ?_⟩
          · rw [hhdr]
            obtain ⟨tl, htl⟩ := atat_shape l hb3
            rw [htl]
            simp
          · intro ll hll
            simp at hll
    rw [if_neg hb3] at hp
    by_cases hb4 : (!st.hunkOpen) = true
    · rw [if_pos hb4] at hp
      exact ih st files hnl_rest h1 h2 hp
    rw [if_neg hb4] at hp
    by_cases hb5 : l = gs "\\ No newline at end of file"
    · rw [if_pos hb5] at hp
      exact ih st files hnl_rest h1 h2 hp
    rw [if_neg hb5] at hp
    by_cases hb6 : hasPrefixStr (gs "+") l = true
    · rw [if_pos hb6] at hp
      refine ih _ files hnl_rest ?_ ?_ hp
      · exact h1
      intro g hg
      injection hg with hg
      subst hg
      refine ⟨hwf_f.1, appendToLast_wf f.hunks _ hwf_f.2 ?_⟩
      intro hc
      exact hnl_l (mem_trimPrefixStr _ _ _ hc)
    rw [if_neg hb6] at hp
    by_cases hb7 : hasPrefixStr (gs "-") l = true
    · rw [if_pos hb7] at hp
      refine ih _ files hnl_rest ?_ ?_ hp
      · exact h1
      intro g hg
      injection hg with hg
      subst hg
      refine ⟨hwf_f.1, appendToLast_wf f.hunks _ hwf_f.2 ?_⟩
      intro hc
      exact hnl_l (mem_trimPrefixStr _ _ _ hc)
    rw [if_neg hb7] at hp
    by_cases hb8 : hasPrefixStr (gs " ") l = true
    · rw [if_pos hb8] at hp
      refine ih _ files hnl_rest ?_ ?_ hp
      · exact h1
      intro g hg
      injection hg with hg
      subst hg
      refine ⟨hwf_f.1, appendToLast_wf f.hunks _ hwf_f.2 ?_⟩
      intro hc
      exact hnl_l (mem_trimPrefixStr _ _ _ hc)
    rw [if_neg hb8] at hp
    exact ih st files hnl_rest h1 h2 hp

theorem parseUnifiedDiff_wf (s : GoStr) (files : List DiffFile)
    (hp : parseUnifiedDiff s = .ok files) : ∀ f ∈ files, wfFile f := by
  simp only [parseUnifiedDiff] at hp
  split at hp
  · exact Except.noConfusion hp
  · refine processLines_wf (goLines s) _ files (nl_not_mem_goLines s) ?_ ?_ hp
    · intro f hf
      simp at hf
    · intro f hf
      exact Option.noConfusion hf

theorem splitOnChar_of_not_mem (sep : Char) (l : GoStr) (h : sep ∉ l) :
    splitOnChar sep l = [l] := by
  induction l with
  | nil => rfl
  | cons c rest ih =>
    have hc : c ≠ sep := fun e => h (e ▸ List.mem_cons_self c rest)
    have hrest : sep ∉ rest := fun e => h (List.mem_cons_of_mem c e)
    simp only [splitOnChar, ih hrest]
    rw [if_neg hc]

theorem splitOnChar_append_cons (sep : Char) (l t : GoStr) (h : sep ∉ l) :
    splitOnChar sep (l ++ sep :: t) = l :: splitOnChar sep t := by
  induction l with
  | nil =>
    simp only [List.nil_append, splitOnChar]
    rcases ht : splitOnChar sep t with _ | ⟨a, as⟩
    · exact absurd ht (splitOnChar_ne_nil sep t)
    · simp only [ht]
      simp
  | cons c rest ih =>
    have hc : c ≠ sep := fun e => h (e ▸ List.mem_cons_self c rest)
    have hrest : sep ∉ rest := fun e => h (List.mem_cons_of_mem c e)
    simp only [List.cons_append, splitOnChar, List.append_eq, ih hrest]
    rw [if_neg hc]

theorem dropWhile_append_of_ne_nil (p : Char → Bool) (x y : GoStr)
    (h : x.dropWhile p ≠ []) : (x ++ y).dropWhile p = x.dropWhile p ++ y := by
  induction x with
  | nil => simp [List.dropWhile] at h
  | cons c rest ih =>
    by_cases hc : p c = true
    · rw [List.cons_append, List.dropWhile_cons, if_pos hc, List.dropWhile_cons, if_pos hc]
      apply ih
      rwa [List.dropWhile_cons, if_pos hc] at h
    · rw [List.cons_append, List.dropWhile_cons, List.dropWhile_cons]
      simp [hc]

theorem trimRightNL_append_nl (x : GoStr) : trimRightNL (x ++ ['\n']) = trimRightNL x := by
  unfold trimRightNL
  rw [List.reverse_append]
  simp only [List.reverse_cons, List.reverse_nil, List.nil_append, List.singleton_append]
  rw [List.dropWhile_cons]
  simp

theorem trimRightNL_of_not_mem (l : GoStr) (h : '\n' ∉ l) : trimRightNL l = l := by
  unfold trimRightNL
  have hd : l.reverse.dropWhile (fun c => c = '\n') = l.reverse := by
    rcases hr : l.reverse with _ | ⟨c, t⟩
    · simp
    · have hc : c ∈ l := by
        rw [← List.mem_reverse, hr]
        exact List.mem_cons_self _ _
      have hne : ¬(c = '\n') := fun e => h (e ▸ hc)
      rw [List.dropWhile_cons, if_neg (by simpa using hne)]
  rw [hd, List.reverse_reverse]

theorem trimRightNL_append (a b : GoStr) (h : trimRightNL b ≠ []) :
    trimRightNL (a ++ b) = a ++ trimRightNL b := by
  unfold trimRightNL at *
  have hb : b.reverse.dropWhile (fun c => (c = '\n' : Bool)) ≠ [] := by
    intro e
    rw [e] at h
    exact h rfl
  rw [List.reverse_append, dropWhile_append_of_ne_nil _ _ _ hb, List.reverse_append,
    List.reverse_reverse]

theorem split_join (ls : List GoStr) (hne : ls ≠ [])
    (hwf : ∀ l ∈ ls, '\n' ∉ l ∧ l ≠ []) :
    splitOnChar '\n' (trimRightNL (ls.flatMap (fun l => l ++ ['\n']))) = ls := by
  induction ls with
  | nil => exact absurd rfl hne
  | cons l rest ih =>
    obtain ⟨hl_nl, hl_ne⟩ := hwf l (List.mem_cons_self _ _)
    have hwf_rest : ∀ x ∈ rest, '\n' ∉ x ∧ x ≠ [] :=
      fun x hx => hwf x (List.mem_cons_of_mem l hx)
    rcases rest with _ | ⟨r, rs⟩
    · simp only [List.flatMap_cons, List.flatMap_nil, List.append_nil]
      rw [trimRightNL_append_nl, trimRightNL_of_not_mem l hl_nl,
        splitOnChar_of_not_mem '\n' l hl_nl]
    · have ihr := ih (by simp) hwf_rest
      have hTne : trimRightNL ((r :: rs).flatMap (fun x => x ++ ['\n'])) ≠ [] := by
        intro he
        rw [he] at ihr
        simp only [splitOnChar] at ihr
        have hr0 : ([] : GoStr) = r := (List.cons.injEq _ _ _ _).mp ihr |>.1
        exact (hwf_rest r (List.mem_cons_self _ _)).2 hr0.symm
      rw [List.flatMap_cons, trimRightNL_append _ _ hTne, List.append_assoc,
        List.singleton_append, splitOnChar_append_cons '\n' l _ hl_nl, ihr]

theorem renderLines_wf (f : DiffFile) (hwf : wfFile f) :
    ∀ l ∈ renderLines f, '\n' ∉ l ∧ l ≠ [] := by
  intro l hl
  obtain ⟨hpath, hhunks⟩ := hwf
  simp only [renderLines] at hl
  rcases List.mem_append.mp hl with hh | ht
  · simp only [List.mem_cons, List.not_mem_nil, or_false] at hh
    rcases hh with rfl | rfl | rfl
    · constructor
      · intro hc
        rcases List.mem_append.mp hc with hc1 | hc2
        · rcases List.mem_append.mp hc1 with hc3 | hc4
          · rcases List.mem_append.mp hc3 with hc5 | hc6
            · revert hc5; decide
            · exact hpath hc6
          · revert hc4; decide
        · exact hpath hc2
      · exact List.append_ne_nil_of_left_ne_nil
          (List.append_ne_nil_of_left_ne_nil
            (List.append_ne_nil_of_left_ne_nil (by decide) _) _) _
    · constructor
      · intro hc
        rcases List.mem_append.mp hc with hc1 | hc2
        · revert hc1; decide
        · exact hpath hc2
      · exact List.append_ne_nil_of_left_ne_nil (by decide) _
    · constructor
      · intro hc
        rcases List.mem_append.mp hc with hc1 | hc2
        · revert hc1; decide
        · exact hpath hc2
      · exact List.append_ne_nil_of_left_ne_nil (by decide) _
  · obtain ⟨hunk, hmem, hline⟩ := List.mem_flatMap.mp ht
    obtain ⟨w1, w2, w3⟩ := hhunks hunk hmem
    rcases List.mem_cons.mp hline with rfl | hmap
    · exact ⟨w1, w2⟩
    · obtain ⟨dl, hdl, rfl⟩ := List.mem_map.mp hmap
      constructor
      · intro hc
        rcases List.mem_append.mp hc with hc1 | hc2
        · revert hc1
          cases dl.kind <;> decide
        · exact w3 dl hdl hc2
      · cases dl.kind <;>
          exact List.append_ne_nil_of_left_ne_nil (by decide) _

/-- C9: round-trip of content.  For every diff text the parser accepts, each
parsed `DiffFile`, re-serialized by the renderer, decomposes (split at
newlines) into exactly the synthetic file-header lines followed, hunk by hunk,
by the original hunk header and then every parsed line re-prefixed by its kind
marker (`+` for Add, `-` for Del, space for Context) and its text: the
serialization reproduces the content and kind of every parsed
add/del/context line, grouped by hunk and file. -/
theorem c9_render_round_trip (s : GoStr) (files : List DiffFile)
    (hp : parseUnifiedDiff s = .ok files) :
    ∀ f ∈ files,
      splitOnChar '\n' (renderUnifiedDiffFile f) =
        [gs "diff --git a/" ++ f.path ++ gs " b/" ++ f.path,
         gs "--- a/" ++ f.path, gs "+++ b/" ++ f.path] ++
        f.hunks.flatMap
          (fun h => h.header :: h.lines.map (fun l => kindMarker l.kind ++ l.text)) := by
  intro f hf
  have hwf := parseUnifiedDiff_wf s files hp f hf
  have hsplit : splitOnChar '\n' (renderUnifiedDiffFile f) = renderLines f := by
    unfold renderUnifiedDiffFile
    exact split_join (renderLines f) (by simp [renderLines]) (renderLines_wf f hwf)
  rw [hsplit]
  rfl

/-- C9 witness: the round-trip theorem applied to a concrete three-line diff
and its parsed file. -/
theorem c9_witness :
    parseUnifiedDiff sampleDiffText = .ok [sampleParsedFile] ∧
    splitOnChar '\n' (renderUnifiedDiffFile sampleParsedFile) =
      [gs "diff --git a/" ++ sampleParsedFile.path ++ gs " b/" ++ sampleParsedFile.path,
       gs "--- a/" ++ sampleParsedFile.path, gs "+++ b/" ++ sampleParsedFile.path] ++
      sampleParsedFile.hunks.flatMap
        (fun h => h.header :: h.lines.map (fun l => kindMarker l.kind ++ l.text)) :=
  ⟨rfl, c9_render_round_trip sampleDiffText [sampleParsedFile] rfl sampleParsedFile
    (List.mem_singleton.mpr rfl)⟩
